import Mathlib

/-!
# execution/wasm/contract.go

A shallow embedding of the ewasm host of `execution/wasm/contract.go`:
the module boundary scanner `wasmSize`, the import resolver's host functions
and the outcome classification of `Contract.execute`.

Conventions of the embedding:
* a byte is a `Fin 256`, a `[]byte` is a `List Byte` (a nil slice is `[]`);
* Go's `int`/`int64` values are `Int`, `uint32`/`uint64` values are `Nat`
  reduced modulo `2 ^ 32` / `2 ^ 64` where the source converts or wraps;
* a slice expression `s[a:b]` is `none` when Go would panic; the capacity of
  linear memory is taken to be its length;
* a panic is a value, not an exception: every host function returns the
  machine it leaves behind together with a `Signal`.
-/

namespace Wasm

/-- One octet. -/
abbrev Byte := Fin 256

/-! ## The boundary scanner -/

/-- Modelled from the spec: the "unsigned variable-length-encoded size" reader
of the imported wagon library (`readVarUint(r, n)` behind
`leb128.ReadVarUint32`), which is not under src/; a "read/decode failure" is
`none`.  `bs` is the unread part of the reader and `n` the number of bits the
value may still take.  Each round reads one byte (an empty reader is the
`io.ReadFull` error).  A byte below `1<<7` that fits the `n` bits left ends the
number; a byte with the top bit set is taken only while more than 7 bits are
left, and then adds its low seven bits at `shift`; any other byte is the
error "invalid uint".  The sums stay below `2 ^ 35`, far from the 64 bits of
the source.  The answer is the value and the number of bytes consumed. -/
def readVarUint : List Byte → Nat → Nat → Nat → Nat → Option (Nat × Nat)
  | [], _, _, _, _ => none
  | p :: rest, n, shift, res, size =>
    let b := p.val
    if b < 2 ^ 7 ∧ b ≤ 2 ^ n - 1 then some (res + 2 ^ shift * b, size + 1)
    else if b ≥ 2 ^ 7 ∧ n > 7 then
      readVarUint rest (n - 7) (shift + 7) (res + 2 ^ shift * (b - 2 ^ 7)) (size + 1)
    else none

/-- The reader `leb128.ReadVarUint32` on the unread bytes `bs`: the value as a
`uint32` and the bytes consumed, or `none` for an error. -/
def ReadVarUint32 (bs : List Byte) : Option (Nat × Nat) :=
  match readVarUint bs 32 0 0 0 with
  | none => none
  | some (v, size) => some (v % 2 ^ 32, size)

/-- One round of the loop of `wasmSize` with the running offset `top`:
`none` is a `break`, `some t` continues with `top = t`.
`reader.Seek(top, 0)`, `ReadByte`, the id test, `ReadVarUint32`,
`pos := reader.Seek(0, 1)` and the overrun test. -/
def wasmSizeStep (code : List Byte) (top : Nat) : Option Nat :=
  match code[top]? with
  | none => none
  | some id =>
    if id.val = 0 ∨ id.val > 11 then none
    else
      match ReadVarUint32 (code.drop (top + 1)) with
      | none => none
      | some (size, n) =>
        let pos := top + 1 + n
        if pos + size > code.length then none else some (pos + size)

/-- The `for` loop of `wasmSize`, run for at most `fuel` rounds; `none` means
the rounds were used up before a `break`. -/
def wasmSizeLoop (code : List Byte) : Nat → Nat → Option Nat
  | 0, _ => none
  | fuel + 1, top =>
    match wasmSizeStep code top with
    | none => some top
    | some top1 => wasmSizeLoop code fuel top1

/-- The function `wasmSize`: the loop started at `top = 8`, with one round more
than there are bytes in `code`. -/
def wasmSize (code : List Byte) : Option Nat :=
  wasmSizeLoop code (code.length + 1) 8

/-! ### Well-formed modules, as the module format describes them -/

/-- The number a LEB128 group of bytes denotes: seven bits a byte, least
significant group first. -/
def lebValue : List Byte → Nat
  | [] => 0
  | b :: rest => b.val % 128 + 128 * lebValue rest

/-- A complete LEB128 group: at least one byte, the continuation bit set on
every byte but the last. -/
def lebComplete : List Byte → Bool
  | [] => false
  | [b] => decide (b.val < 128)
  | b :: c :: rest => decide (128 ≤ b.val) && lebComplete (c :: rest)

/-- A section of a module: the id byte, the bytes of the size field and the
payload. -/
structure Section where
  id : Byte
  size : List Byte
  payload : List Byte

/-- The section is valid: the id is in 1..11 and the size field is an unsigned
LEB128 32-bit number (a complete group of at most 5 bytes with a value below
`2 ^ 32`) equal to the length of the payload. -/
def Section.valid (s : Section) : Prop :=
  1 ≤ s.id.val ∧ s.id.val ≤ 11 ∧ lebComplete s.size = true ∧ s.size.length ≤ 5 ∧
    lebValue s.size = s.payload.length ∧ s.payload.length < 2 ^ 32

instance (s : Section) : Decidable s.valid := by
  unfold Section.valid; infer_instance

/-- The bytes of a section. -/
def Section.bytes (s : Section) : List Byte :=
  s.id :: (s.size ++ s.payload)

/-- The bytes of a run of sections. -/
def sectionBytes : List Section → List Byte
  | [] => []
  | s :: rest => s.bytes ++ sectionBytes rest

/-- A module: the preamble followed by its sections. -/
def moduleBytes (preamble : List Byte) (secs : List Section) : List Byte :=
  preamble ++ sectionBytes secs

/-- A module is well formed when the preamble has 8 bytes and every section is
valid. -/
def WellFormed (preamble : List Byte) (secs : List Section) : Prop :=
  preamble.length = 8 ∧ ∀ s ∈ secs, s.valid

instance (preamble : List Byte) (secs : List Section) :
    Decidable (WellFormed preamble secs) := by
  unfold WellFormed; infer_instance

/-- A non-empty trailer that does not begin with a valid section: its first
byte is 0, or is above 11, or the size field after it is truncated (no byte
without the continuation bit follows), or the size it declares is more than
the bytes that remain. -/
inductive NotASection : List Byte → Prop
  | zeroId (id : Byte) (rest : List Byte) : id.val = 0 → NotASection (id :: rest)
  | bigId (id : Byte) (rest : List Byte) : 11 < id.val → NotASection (id :: rest)
  | truncated (id : Byte) (rest : List Byte) :
      (∀ b ∈ rest, 128 ≤ b.val) → NotASection (id :: rest)
  | overrun (id : Byte) (sz rest : List Byte) :
      lebComplete sz = true → rest.length < lebValue sz →
      NotASection (id :: (sz ++ rest))

/-! ## Values of the host -/

/-- The conversion `uint32(x)` of an `int64`. -/
def uint32 (x : Int) : Nat := (x % 2 ^ 32).toNat

/-- The conversion `uint64(x)` of an `int64`. -/
def uint64 (x : Int) : Nat := (x % 2 ^ 64).toNat

/-- The slice expression `s[lo:hi]` on `int` bounds; `none` is the run-time
panic "slice bounds out of range". -/
def slice? (s : List Byte) (lo hi : Int) : Option (List Byte) :=
  if 0 ≤ lo ∧ lo ≤ hi ∧ hi ≤ s.length then
    some ((s.drop lo.toNat).take (hi.toNat - lo.toNat))
  else none

/-- The memory after `copy(dst, src)` where `dst` is the window of `n` bytes of
`mem` that starts at `lo`: `copy` moves as many bytes as the shorter of the two
holds. -/
def copyInto (mem : List Byte) (lo n : Nat) (src : List Byte) : List Byte :=
  let k := min n src.length
  mem.take lo ++ (src.take k ++ mem.drop (lo + k))

/-- The statement `copy(mem[lo:hi], src)`: the memory afterwards, or `none` when
the slice expression panics. -/
def copyTo? (mem : List Byte) (lo hi : Int) (src : List Byte) : Option (List Byte) :=
  if 0 ≤ lo ∧ lo ≤ hi ∧ hi ≤ mem.length then
    some (copyInto mem lo.toNat (hi.toNat - lo.toNat) src)
  else none

/-- The number held by bytes in little-endian order
(`bin.BigIntFromLittleEndianBytes`). -/
def littleEndian : List Byte → Nat
  | [] => 0
  | b :: rest => b.val + 256 * littleEndian rest

/-- The constant `ValueByteSize`. -/
def ValueByteSize : Nat := 16

/-- The memory with the `n` bytes from `lo` in reverse order. -/
def reverseWindow (mem : List Byte) (lo n : Nat) : List Byte :=
  mem.take lo ++ (((mem.drop lo).take n).reverse ++ mem.drop (lo + n))

/-- Modelled from the spec: the statement
`value := bin.BigIntFromLittleEndianBytes(vm.Memory[valuePtr : valuePtr+ValueByteSize])`,
whose callee is not under src/ ("value fields carried across the ABI are
exactly 16 bytes, little-endian").  The callee reverses the slice it is handed
in place and reads the result as a big-endian number, so the answer is the
little-endian number of the window together with the memory in which that
window is left reversed; `none` when the slice expression panics. -/
def readValue? (mem : List Byte) (valuePtr : Int) : Option (Nat × List Byte) :=
  match slice? mem valuePtr (valuePtr + ValueByteSize) with
  | none => none
  | some bs => some (littleEndian bs, reverseWindow mem valuePtr.toNat ValueByteSize)

/-- The eight bytes `binary.BigEndian.PutUint64` writes for `n`. -/
def bigEndian64 (n : Nat) : List Byte :=
  (List.range 8).map (fun i => Fin.ofNat ((n / 256 ^ (7 - i)) % 256))

/-- The codes of `errors.Codes` that the file names, and `Generic` for an
error without a code. -/
inductive Code
  | None
  | Generic
  | ExecutionReverted
  | ExecutionAborted
  | InvalidContract
  | UnresolvedSymbols
  | InvalidAddress
  deriving DecidableEq, Repr

/-- An `error` value, as far as the file looks at one: its code. -/
structure Error where
  code : Code
  deriving DecidableEq, Repr

/-- The function `errors.GetCode`: the code of an error, `None` for `nil`. -/
def GetCode : Option Error → Code
  | none => Code.None
  | some e => e.code

/-- What a `panic` was given. -/
inductive PanicValue
  /-- The statement `panic(errors.Codes.X)`. -/
  | code (c : Code)
  /-- The statement `panic(err)` for an error value. -/
  | error (e : Error)
  /-- The statements `panic("...")` and `panic(fmt.Sprintf(...))`. -/
  | message (s : String)
  /-- A panic of the Go run time: slice bounds or index out of range. -/
  | runtime
  deriving DecidableEq, Repr

/-- How the call of a host function ends: it returns an `int64`, or panics. -/
inductive Signal
  | ret (code : Int)
  | panic (p : PanicValue)
  deriving DecidableEq, Repr

/-- The call was aborted by a panic. -/
def Signal.aborts : Signal → Bool
  | .ret _ => false
  | .panic _ => true

/-- The return code `Success`. -/
def Success : Int := 0

/-- The return code `Error`, written `ErrorCode` here. -/
def ErrorCode : Int := 1

/-- The return code `Revert`. -/
def Revert : Int := 2

/-- The constant `crypto.AddressLength`. -/
def AddressLength : Nat := 20

/-- A `crypto.Address`: twenty bytes. -/
structure Address where
  bytes : List Byte
  size : bytes.length = 20
  deriving DecidableEq

/-- The address `crypto.ZeroAddress`, also the zero value of the type. -/
def ZeroAddress : Address := ⟨List.replicate 20 0, by simp⟩

/-- The type `exec.CallType`. -/
inductive CallType
  | Call
  | Static
  | Code
  | Delegate
  deriving DecidableEq, Repr

/-- The fields of `engine.CallParams`; `Gas` is the number its `*big.Int`
holds. -/
structure CallParams where
  CallType : CallType
  Origin : Address
  Caller : Address
  Callee : Address
  Input : List Byte
  Value : Nat
  Gas : Int
  deriving DecidableEq

/-- The struct `context` (the embedded `*Contract` apart); `σ` is the ledger
state behind `engine.State`. -/
structure context (σ : Type) where
  state : σ
  params : CallParams
  code : List Byte
  output : List Byte
  returnData : List Byte
  sequence : Nat
  deriving DecidableEq

/-- What a host function sees of the interpreter: linear memory, the locals of
the current frame, and the context it is closed over. -/
structure Machine (σ : Type) where
  Memory : List Byte
  Locals : List Int
  ctx : context σ
  deriving DecidableEq

/-- What a nested call leaves behind: the state, the bytes it returned, its
error, and the numbers left in the gas counters it was handed (the callee's
`Gas` and, for `CallFromSite`, the call site's). -/
structure CallResult (σ : Type) where
  state : σ
  output : List Byte
  err : Option Error
  gas : Int
  siteGas : Int

/-- The collaborators of the file that are not under src/: the ledger behind
`engine.State`, the engine's call paths, the address hash and the constants of
other packages. -/
structure Env (σ : Type) where
  /-- The call `engine.EnsurePermission(state.CallFrame, address, permission.CreateContract)`. -/
  EnsureCreatePermission : σ → Address → Option Error
  /-- The call `state.CallFrame.CreateAccount(creator, address)`. -/
  CreateAccount : σ → Address → Address → σ × Option Error
  /-- The call `crypto.NewContractAddress(caller, nonce)`. -/
  NewContractAddress : Address → List Byte → Address
  /-- The call `ctx.vm.Contract(code).Call(state, params)`. -/
  ContractCall : σ → List Byte → CallParams → CallResult σ
  /-- The call `engine.InitWASMCode(state, address, code)`. -/
  InitWASMCode : σ → Address → List Byte → σ × Option Error
  /-- The call `engine.CallFromSite(state, dispatcher, site, target)`. -/
  CallFromSite : σ → CallParams → CallParams → CallResult σ
  /-- The call `state.Blockchain.LastBlockHeight()`. -/
  LastBlockHeight : σ → Nat
  /-- The call `state.Blockchain.BlockHash(height)`. -/
  BlockHash : σ → Nat → Except Error (List Byte)
  /-- The constant `evm.MaximumAllowedBlockLookBack`. -/
  MaximumAllowedBlockLookBack : Nat
  /-- The option `ctx.vm.options.Nonce`. -/
  Nonce : List Byte
  /-- The constant `txs.HashLength`. -/
  HashLength : Nat

/-! ## The host functions of `ResolveFunc` -/

section HostFunctions

variable {σ : Type}

/-- A panic of the Go run time, leaving the machine as it is. -/
def runtimePanic (m : Machine σ) : Machine σ × Signal :=
  (m, Signal.panic PanicValue.runtime)

/-- The case "finish": it records `vm.Memory[dataPtr : dataPtr+dataLen]` as the
output and panics with `errors.Codes.None`. -/
def finish (m : Machine σ) : Machine σ × Signal :=
  match m.Locals[0]?, m.Locals[1]? with
  | some l0, some l1 =>
    let dataPtr : Int := uint32 l0
    let dataLen : Int := uint32 l1
    match slice? m.Memory dataPtr (dataPtr + dataLen) with
    | none => runtimePanic m
    | some out =>
      ({ m with ctx := { m.ctx with output := out } }, Signal.panic (PanicValue.code Code.None))
  | _, _ => runtimePanic m

/-- The case "revert": it records `vm.Memory[dataPtr : dataPtr+dataLen]` as the
output and panics with `errors.Codes.ExecutionReverted`. -/
def revert (m : Machine σ) : Machine σ × Signal :=
  match m.Locals[0]?, m.Locals[1]? with
  | some l0, some l1 =>
    let dataPtr : Int := uint32 l0
    let dataLen : Int := uint32 l1
    match slice? m.Memory dataPtr (dataPtr + dataLen) with
    | none => runtimePanic m
    | some out =>
      ({ m with ctx := { m.ctx with output := out } },
        Signal.panic (PanicValue.code Code.ExecutionReverted))
  | _, _ => runtimePanic m

/-- The case "getAddress": `copy(vm.Memory[addressPtr:], ctx.params.Callee.Bytes())`. -/
def getAddress (m : Machine σ) : Machine σ × Signal :=
  match m.Locals[0]? with
  | none => runtimePanic m
  | some l0 =>
    let addressPtr : Int := uint32 l0
    match copyTo? m.Memory addressPtr m.Memory.length m.ctx.params.Callee.bytes with
    | none => runtimePanic m
    | some mem => ({ m with Memory := mem }, Signal.ret Success)

/-- The case "getTxOrigin":
`copy(vm.Memory[addressPtr:addressPtr+crypto.AddressLength], ctx.params.Origin.Bytes())`. -/
def getTxOrigin (m : Machine σ) : Machine σ × Signal :=
  match m.Locals[0]? with
  | none => runtimePanic m
  | some l0 =>
    let addressPtr : Int := uint32 l0
    match copyTo? m.Memory addressPtr (addressPtr + AddressLength) m.ctx.params.Origin.bytes with
    | none => runtimePanic m
    | some mem => ({ m with Memory := mem }, Signal.ret Success)

/-- The case "getCaller":
`copy(vm.Memory[addressPtr:addressPtr+crypto.AddressLength], ctx.params.Caller.Bytes())`. -/
def getCaller (m : Machine σ) : Machine σ × Signal :=
  match m.Locals[0]? with
  | none => runtimePanic m
  | some l0 =>
    let addressPtr : Int := uint32 l0
    match copyTo? m.Memory addressPtr (addressPtr + AddressLength) m.ctx.params.Caller.bytes with
    | none => runtimePanic m
    | some mem => ({ m with Memory := mem }, Signal.ret Success)

/-- The case "getCodeSize": `int64(len(ctx.code))`. -/
def getCodeSize (m : Machine σ) : Machine σ × Signal :=
  (m, Signal.ret m.ctx.code.length)

/-- The case "codeCopy": for a positive `dataLen`,
`copy(vm.Memory[destPtr:], ctx.code[dataOffset:dataOffset+dataLen])`. -/
def codeCopy (m : Machine σ) : Machine σ × Signal :=
  match m.Locals[0]?, m.Locals[1]?, m.Locals[2]? with
  | some l0, some l1, some l2 =>
    let destPtr : Int := uint32 l0
    let dataOffset : Int := uint32 l1
    let dataLen : Int := uint32 l2
    if dataLen > 0 then
      match slice? m.Memory destPtr m.Memory.length,
          slice? m.ctx.code dataOffset (dataOffset + dataLen) with
      | some _, some src =>
        ({ m with Memory := copyInto m.Memory destPtr.toNat (m.Memory.length - destPtr.toNat) src },
          Signal.ret Success)
      | _, _ => runtimePanic m
    else (m, Signal.ret Success)
  | _, _, _ => runtimePanic m

/-- The inner `switch field` of the call family, with its misspelt fourth
label: `none` is the `default` branch. -/
def callTypeOf (field : String) : Option CallType :=
  if field = "call" then some CallType.Call
  else if field = "callCode" then some CallType.Code
  else if field = "callStatic" then some CallType.Static
  else if field = "callDeletegate" then some CallType.Delegate
  else none

/-- The case "call", "callCode", "callDelegate", "callStatic" for the name
`field`.  The value is read, and its window of memory reversed, for all four
names: at `valuePtr = 0` for the two that take no value. -/
def callFamily (env : Env σ) (field : String) (m : Machine σ) : Machine σ × Signal :=
  match m.Locals[0]?, m.Locals[1]? with
  | some gasLimit, some l1 =>
    let addressPtr : Nat := uint32 l1
    let withValue : Bool := field = "call" ∨ field = "callCode"
    let i : Nat := if withValue then 3 else 2
    match (if withValue then m.Locals[2]? else some 0), m.Locals[i]?, m.Locals[i + 1]? with
    | some lv, some ld, some ll =>
      let valuePtr : Int := uint32 lv
      let dataPtr : Nat := uint32 ld
      let dataLen : Nat := uint32 ll
      match slice? m.Memory addressPtr ((addressPtr + AddressLength) % 2 ^ 32 : Nat) with
      | none => runtimePanic m
      | some targetBytes =>
        if hlen : targetBytes.length = 20 then
          let target : Address := ⟨targetBytes, hlen⟩
          match readValue? m.Memory valuePtr with
          | none => runtimePanic m
          | some (value, mem1) =>
            let m0 : Machine σ := { m with Memory := mem1 }
            match callTypeOf field with
            | none => (m0, Signal.panic (PanicValue.message "should not happen"))
            | some callType =>
              match slice? mem1 dataPtr ((dataPtr + dataLen) % 2 ^ 32 : Nat) with
              | none => runtimePanic m0
              | some input =>
                let r := env.CallFromSite m.ctx.state m.ctx.params
                  { CallType := callType, Origin := ZeroAddress, Caller := ZeroAddress,
                    Callee := target, Input := input, Value := value, Gas := gasLimit }
                let ctx1 : context σ :=
                  { m.ctx with
                    state := r.state
                    returnData := r.output
                    params := { m.ctx.params with Gas := r.siteGas + r.gas } }
                let m1 : Machine σ := { m0 with ctx := ctx1 }
                match r.err with
                | some e =>
                  if e.code = Code.ExecutionReverted then (m1, Signal.ret Revert)
                  else (m1, Signal.panic (PanicValue.error e))
                | none => (m1, Signal.ret Success)
        else (m, Signal.panic (PanicValue.message "MustAddressFromBytes"))
    | _, _, _ => runtimePanic m
  | _, _ => runtimePanic m

/-- The nonce of "create": `txs.HashLength + 8` zero bytes, the configured nonce
copied over their start, the sequence number big-endian in the last eight. -/
def createNonce (env : Env σ) (sequence : Nat) : List Byte :=
  let nonce := copyInto (List.replicate (env.HashLength + 8) 0) 0 (env.HashLength + 8) env.Nonce
  copyInto nonce env.HashLength 8 (bigEndian64 sequence)

/-- The case "create".  The value read comes first and leaves its window of
memory reversed on every path after it. -/
def create (env : Env σ) (m : Machine σ) : Machine σ × Signal :=
  match m.Locals[0]?, m.Locals[1]?, m.Locals[2]?, m.Locals[3]? with
  | some l0, some l1, some l2, some l3 =>
    let valuePtr : Int := uint32 l0
    let dataPtr : Nat := uint32 l1
    let dataLen : Nat := uint32 l2
    let resultPtr : Nat := uint32 l3
    match readValue? m.Memory valuePtr with
    | none => runtimePanic m
    | some (value, mem1) =>
      let m0 : Machine σ := { m with Memory := mem1 }
      match slice? mem1 dataPtr ((dataPtr + dataLen) % 2 ^ 32 : Nat) with
      | none => runtimePanic m0
      | some initCode =>
        let sequence := (m.ctx.sequence + 1) % 2 ^ 64
        let m1 : Machine σ := { m0 with ctx := { m.ctx with sequence := sequence } }
        let newAccountAddress :=
          env.NewContractAddress m.ctx.params.Callee (createNonce env sequence)
        match env.EnsureCreatePermission m.ctx.state m.ctx.params.Callee with
        | some _ => (m1, Signal.ret ErrorCode)
        | none =>
          match env.CreateAccount m.ctx.state m.ctx.params.Caller newAccountAddress with
          | (st2, some _) =>
            ({ m1 with ctx := { m1.ctx with state := st2 } }, Signal.ret ErrorCode)
          | (st2, none) =>
            let r := env.ContractCall st2 initCode
              { CallType := CallType.Call, Origin := ZeroAddress,
                Caller := m.ctx.params.Caller, Callee := newAccountAddress, Input := [],
                Value := value, Gas := m.ctx.params.Gas }
            let m3 : Machine σ :=
              { m1 with ctx := { m1.ctx with
                  state := r.state
                  params := { m.ctx.params with Gas := r.gas } } }
            match r.err with
            | some e =>
              if e.code = Code.ExecutionReverted then (m3, Signal.ret Revert)
              else (m3, Signal.panic (PanicValue.error e))
            | none =>
              match env.InitWASMCode r.state newAccountAddress r.output with
              | (st4, some e) =>
                let m4 : Machine σ := { m3 with ctx := { m3.ctx with state := st4 } }
                if e.code = Code.ExecutionReverted then (m4, Signal.ret Revert)
                else (m4, Signal.panic (PanicValue.error e))
              | (st4, none) =>
                let m4 : Machine σ := { m3 with ctx := { m3.ctx with state := st4 } }
                match copyTo? m4.Memory resultPtr m4.Memory.length newAccountAddress.bytes with
                | none => runtimePanic m4
                | some mem => ({ m4 with Memory := mem }, Signal.ret Success)
  | _, _, _, _ => runtimePanic m

/-- The case "getBlockHash"; `blockNumber` is `uint64(Locals[0])` and `hashPtr`
is `int(Locals[1])`. -/
def getBlockHash (env : Env σ) (m : Machine σ) : Machine σ × Signal :=
  match m.Locals[0]?, m.Locals[1]? with
  | some l0, some l1 =>
    let blockNumber : Nat := uint64 l0
    let hashPtr : Int := l1
    let lastBlockHeight := env.LastBlockHeight m.ctx.state
    if blockNumber ≥ lastBlockHeight then
      (m, Signal.panic (PanicValue.message
        (" => attempted to get block hash of a non-existent block: " ++ toString blockNumber)))
    else if lastBlockHeight - blockNumber > env.MaximumAllowedBlockLookBack then
      (m, Signal.panic (PanicValue.message
        (" => attempted to get block hash of a block " ++ toString blockNumber ++
          " outside of the allowed range")))
    else
      match env.BlockHash m.ctx.state blockNumber with
      | Except.error _ => (m, Signal.panic (PanicValue.message " => blockhash failed"))
      | Except.ok hash =>
        match copyTo? m.Memory hashPtr (hashPtr + hash.length) hash with
        | none => runtimePanic m
        | some mem => ({ m with Memory := mem }, Signal.ret Success)
  | _, _ => runtimePanic m

end HostFunctions

/-! ## The interpreter and `Contract.execute` -/

section Execute

variable {σ : Type}

/-- The struct `Contract` (its `vm` field apart). -/
structure Contract where
  code : List Byte

/-- A call of a resolved import made by the running bytecode: the host
function, and the locals of the frame and the linear memory at that moment.
The bytecode between two calls is not modelled, so each call brings its own
memory. -/
structure HostCall (σ : Type) where
  func : Machine σ → Machine σ × Signal
  Locals : List Int
  Memory : List Byte

/-- Modelled from the spec: the sandboxed interpreter `lifeExec.VirtualMachine`,
which is not under src/ and which the spec treats as a black box ("given code
bytes + an import resolver, it runs an exported entry point and lets the
resolver's callbacks read/write a single growable byte buffer").  An instance
is what the host can observe of it: whether the module exports "main", the
host calls the run of the entry point makes, in order, and the error of the
interpreter itself (if any) when the run ends without a panic of a host
function. -/
structure VirtualMachine (σ : Type) where
  main : Option Nat
  calls : List (HostCall σ)
  exitError : Option Error

/-- Modelled from the spec: the error `vm.Run` returns for a panic it recovered.
A panic with a code is an error of that kind (the "none" sentinel, the
"execution reverted" sentinel); "any other raised condition" has no code of
its own. -/
def UnifyError : PanicValue → Error
  | PanicValue.code c => ⟨c⟩
  | PanicValue.error e => e
  | PanicValue.message _ => ⟨Code.Generic⟩
  | PanicValue.runtime => ⟨Code.Generic⟩

/-- The host calls of a run, one after the other, up to the first that panics:
the context left behind and the value of that panic. -/
def runCalls : List (HostCall σ) → context σ → context σ × Option PanicValue
  | [], ctx => (ctx, none)
  | c :: rest, ctx =>
    match c.func ⟨c.Memory, c.Locals, ctx⟩ with
    | (m, Signal.ret _) => runCalls rest m.ctx
    | (m, Signal.panic p) => (m.ctx, some p)

/-- Modelled from the spec: `vm.Run(entryID)` of the interpreter, not under
src/.  The run "terminates (normally or via signal)": a panic of a host
function ends it and is returned as the error; otherwise the run ends as the
interpreter says. -/
def VirtualMachine.Run (vm : VirtualMachine σ) (ctx : context σ) : context σ × Option Error :=
  match runCalls vm.calls ctx with
  | (ctx1, some p) => (ctx1, some (UnifyError p))
  | (ctx1, none) => (ctx1, vm.exitError)

/-- The context `execute` builds before it starts the interpreter. -/
def newContext (c : Contract) (state : σ) (params : CallParams) : context σ :=
  { state := state, params := params, code := c.code, output := [], returnData := [],
    sequence := 0 }

/-- The code handed to the interpreter, `c.code[0:int(wasmSize(c.code))]`;
`none` when there is none (the slice expression panics).  As for linear
memory, the capacity of the code is taken to be its length. -/
def trimmedCode (code : List Byte) : Option (List Byte) :=
  match wasmSize code with
  | none => none
  | some size => slice? code 0 size

/-- What a call of `execute` comes to. -/
inductive ExecResult (σ : Type)
  /-- It returns `(output, err)`, the ledger left in `state`. -/
  | returned (output : List Byte) (err : Option Error) (state : σ)
  /-- It panics. -/
  | panicked (p : PanicValue)
  /-- The scan of `wasmSize` was cut short by the bound on its rounds. -/
  | unfinished

/-- The method `Contract.execute`; `NewVirtualMachine` is the constructor of
the interpreter. -/
def execute (NewVirtualMachine : List Byte → Except Error (VirtualMachine σ))
    (c : Contract) (state : σ) (params : CallParams) : ExecResult σ :=
  let ctx := newContext c state params
  match wasmSize c.code with
  | none => ExecResult.unfinished
  | some size =>
    match slice? c.code 0 size with
    | none => ExecResult.panicked PanicValue.runtime
    | some code =>
      match NewVirtualMachine code with
      | Except.error _ => ExecResult.returned [] (some ⟨Code.InvalidContract⟩) state
      | Except.ok vm =>
        match vm.main with
        | none => ExecResult.returned [] (some ⟨Code.UnresolvedSymbols⟩) state
        | some _ =>
          match vm.Run ctx with
          | (ctx1, err) =>
            if err ≠ none ∧ GetCode err = Code.ExecutionReverted then
              ExecResult.returned [] err ctx1.state
            else if err ≠ none ∧ GetCode err ≠ Code.None then
              ExecResult.returned [] (some ⟨Code.ExecutionAborted⟩) ctx1.state
            else ExecResult.returned ctx1.output none ctx1.state

end Execute

/-! ## A small ledger to run the host functions on -/

/-- A ledger with a single state: contract creation is denied, account
operations and nested calls succeed and return nothing, the chain is at height
10 with a lookback of 256, and the hash of block `n` is 32 bytes `n % 256`. -/
def unitLedger : Env Unit where
  EnsureCreatePermission := fun _ _ => some ⟨Code.Generic⟩
  CreateAccount := fun _ _ _ => ((), none)
  NewContractAddress := fun a _ => a
  ContractCall := fun _ _ p => ⟨(), [], none, p.Gas, 0⟩
  InitWASMCode := fun _ _ _ => ((), none)
  CallFromSite := fun _ site p => ⟨(), [], none, p.Gas, site.Gas⟩
  LastBlockHeight := fun _ => 10
  BlockHash := fun _ n => Except.ok (List.replicate 32 (Fin.ofNat (n % 256)))
  MaximumAllowedBlockLookBack := 256
  Nonce := []
  HashLength := 32

/-- Call parameters with the callee `cc…`, the caller `aa…`, the origin `bb…`
and no input. -/
def unitParams : CallParams :=
  { CallType := CallType.Call
    Origin := ⟨List.replicate 20 0xbb, by simp⟩
    Caller := ⟨List.replicate 20 0xaa, by simp⟩
    Callee := ⟨List.replicate 20 0xcc, by simp⟩
    Input := []
    Value := 0
    Gas := 1000 }

/-- A context over the one-state ledger with the deployed code `code`. -/
def unitContext (code : List Byte) : context Unit :=
  newContext ⟨code⟩ () unitParams

/-! ## Theorems: the boundary scanner -/

/-- The reader on a complete group followed by anything: it fails, or it
consumes exactly the group, adds the value of the group at `shift`, and that
value fits the `n` bits. -/
theorem readVarUint_complete (bs : List Byte) :
    ∀ (rest : List Byte) (n shift res size : Nat), lebComplete bs = true →
      readVarUint (bs ++ rest) n shift res size = none ∨
      (readVarUint (bs ++ rest) n shift res size
          = some (res + 2 ^ shift * lebValue bs, size + bs.length) ∧
        lebValue bs < 2 ^ n) := by
  induction bs with
  | nil => intro rest n shift res size h; simp [lebComplete] at h
  | cons b tl ih =>
    intro rest n shift res size h
    cases tl with
    | nil =>
      have hb : b.val < 128 := by simpa [lebComplete] using h
      have hv : lebValue [b] = b.val := by
        simp only [lebValue]; omega
      have hpos : 0 < 2 ^ n := Nat.two_pow_pos n
      by_cases hfit : b.val ≤ 2 ^ n - 1
      · right
        refine ⟨?_, by rw [hv]; omega⟩
        have hcond : b.val < 2 ^ 7 ∧ b.val ≤ 2 ^ n - 1 := ⟨by norm_num; exact hb, hfit⟩
        simp only [List.cons_append, List.nil_append, readVarUint, hcond, and_self, if_true, hv,
          List.length_cons, List.length_nil]
      · left
        have hcond : ¬ (b.val < 2 ^ 7 ∧ b.val ≤ 2 ^ n - 1) := fun hc => hfit hc.2
        have hcond2 : ¬ (b.val ≥ 2 ^ 7 ∧ n > 7) := by
          intro hc
          have := hc.1
          norm_num at this
          omega
        simp only [List.cons_append, List.nil_append, readVarUint, hcond, hcond2, if_false]
    | cons c tl2 =>
      have hb : 128 ≤ b.val := by
        simp only [lebComplete, Bool.and_eq_true, decide_eq_true_eq] at h; exact h.1
      have htl : lebComplete (c :: tl2) = true := by
        simp only [lebComplete, Bool.and_eq_true, decide_eq_true_eq] at h; exact h.2
      have hblt : b.val < 256 := b.isLt
      have hcond : ¬ (b.val < 2 ^ 7 ∧ b.val ≤ 2 ^ n - 1) := by
        intro hc
        have := hc.1
        norm_num at this
        omega
      by_cases hn : n > 7
      · have hcond2 : b.val ≥ 2 ^ 7 ∧ n > 7 := ⟨by norm_num; exact hb, hn⟩
        have hstep : readVarUint ((b :: c :: tl2) ++ rest) n shift res size
            = readVarUint ((c :: tl2) ++ rest) (n - 7) (shift + 7)
                (res + 2 ^ shift * (b.val - 2 ^ 7)) (size + 1) := by
          simp only [List.cons_append, readVarUint, hcond, hcond2, and_self, if_true, if_false]
        rw [hstep]
        rcases ih rest (n - 7) (shift + 7) (res + 2 ^ shift * (b.val - 2 ^ 7)) (size + 1) htl with
          hnone | ⟨hsome, hfit⟩
        · exact Or.inl hnone
        · right
          have hmod : b.val % 128 = b.val - 2 ^ 7 := by
            norm_num; omega
          have hpow : 2 ^ n = 2 ^ (n - 7) * 128 := by
            have : n = (n - 7) + 7 := by omega
            conv_lhs => rw [this, Nat.pow_add]
          have hlv : lebValue (b :: c :: tl2) = b.val % 128 + 128 * lebValue (c :: tl2) := rfl
          have hll : (b :: c :: tl2).length = (c :: tl2).length + 1 := rfl
          rw [hlv, hll]
          generalize lebValue (c :: tl2) = V at hsome hfit ⊢
          generalize (c :: tl2).length = L at hsome ⊢
          refine ⟨?_, ?_⟩
          · have e1 : ∀ d : Nat, res + 2 ^ shift * d + 2 ^ (shift + 7) * V
                = res + 2 ^ shift * (d + 128 * V) := by
              intro d; rw [Nat.pow_add]; ring
            have e2 : size + 1 + L = size + (L + 1) := by omega
            rw [hsome, hmod, e1, e2]
          · rw [hpow]
            have : b.val % 128 < 128 := Nat.mod_lt _ (by norm_num)
            omega
      · left
        have hcond2 : ¬ (b.val ≥ 2 ^ 7 ∧ n > 7) := fun hc => hn hc.2
        simp only [List.cons_append, readVarUint, hcond, hcond2, if_false]

/-- The reader accepts a complete group that is short enough for the `n` bits
and whose value fits them. -/
theorem readVarUint_accepts (bs : List Byte) :
    ∀ (rest : List Byte) (n shift res size : Nat), lebComplete bs = true →
      7 * (bs.length - 1) < n → lebValue bs < 2 ^ n →
      readVarUint (bs ++ rest) n shift res size
        = some (res + 2 ^ shift * lebValue bs, size + bs.length) := by
  induction bs with
  | nil => intro rest n shift res size h; simp [lebComplete] at h
  | cons b tl ih =>
    intro rest n shift res size h hlen hval
    cases tl with
    | nil =>
      have hb : b.val < 128 := by simpa [lebComplete] using h
      have hv : lebValue [b] = b.val := by
        simp only [lebValue]; omega
      rw [hv] at hval
      have hcond : b.val < 2 ^ 7 ∧ b.val ≤ 2 ^ n - 1 := ⟨by norm_num; exact hb, by omega⟩
      simp only [List.cons_append, List.nil_append, readVarUint, hcond, and_self, if_true, hv,
        List.length_cons, List.length_nil]
    | cons c tl2 =>
      have hb : 128 ≤ b.val := by
        simp only [lebComplete, Bool.and_eq_true, decide_eq_true_eq] at h; exact h.1
      have htl : lebComplete (c :: tl2) = true := by
        simp only [lebComplete, Bool.and_eq_true, decide_eq_true_eq] at h; exact h.2
      have hn : n > 7 := by
        simp only [List.length_cons] at hlen; omega
      have hpow : 2 ^ n = 2 ^ (n - 7) * 128 := by
        have : n = (n - 7) + 7 := by omega
        conv_lhs => rw [this, Nat.pow_add]
      have hval2 : lebValue (c :: tl2) < 2 ^ (n - 7) := by
        have hlv : lebValue (b :: c :: tl2) = b.val % 128 + 128 * lebValue (c :: tl2) := rfl
        rw [hlv, hpow] at hval
        omega
      have hlen2 : 7 * ((c :: tl2).length - 1) < n - 7 := by
        simp only [List.length_cons] at hlen ⊢; omega
      rcases readVarUint_complete (b :: c :: tl2) rest n shift res size h with hnone | ⟨hsome, _⟩
      · exfalso
        have hcond : ¬ (b.val < 2 ^ 7 ∧ b.val ≤ 2 ^ n - 1) := by
          intro hc
          have := hc.1
          norm_num at this
          omega
        have hcond2 : b.val ≥ 2 ^ 7 ∧ n > 7 := ⟨by norm_num; exact hb, hn⟩
        have hstep : readVarUint ((b :: c :: tl2) ++ rest) n shift res size
            = readVarUint ((c :: tl2) ++ rest) (n - 7) (shift + 7)
                (res + 2 ^ shift * (b.val - 2 ^ 7)) (size + 1) := by
          simp only [List.cons_append, readVarUint, hcond, hcond2, and_self, if_true, if_false]
        rw [hstep, ih rest _ _ _ _ htl hlen2 hval2] at hnone
        simp at hnone
      · exact hsome

/-- The reader `ReadVarUint32` on a valid size field followed by anything. -/
theorem readVarUint32_accepts (bs rest : List Byte) (h : lebComplete bs = true)
    (hlen : bs.length ≤ 5) (hval : lebValue bs < 2 ^ 32) :
    ReadVarUint32 (bs ++ rest) = some (lebValue bs, bs.length) := by
  unfold ReadVarUint32
  rw [readVarUint_accepts bs rest 32 0 0 0 h (by omega) hval]
  simp only [Nat.zero_add, Nat.pow_zero, Nat.one_mul, Nat.mod_eq_of_lt hval]

/-- The reader `ReadVarUint32` on a complete group followed by anything: an
error, or the value of the group and its length. -/
theorem readVarUint32_complete (bs rest : List Byte) (h : lebComplete bs = true) :
    ReadVarUint32 (bs ++ rest) = none ∨
      ReadVarUint32 (bs ++ rest) = some (lebValue bs, bs.length) := by
  unfold ReadVarUint32
  rcases readVarUint_complete bs rest 32 0 0 0 h with hnone | ⟨hsome, hfit⟩
  · left; rw [hnone]
  · right
    rw [hsome]
    simp only [Nat.zero_add, Nat.pow_zero, Nat.one_mul, Nat.mod_eq_of_lt hfit]

/-- The reader fails on bytes that all carry the continuation bit. -/
theorem readVarUint_truncated (bs : List Byte) :
    ∀ (n shift res size : Nat), (∀ b ∈ bs, 128 ≤ b.val) →
      readVarUint bs n shift res size = none := by
  induction bs with
  | nil => intro n shift res size _; rfl
  | cons b tl ih =>
    intro n shift res size h
    have hb : 128 ≤ b.val := h b (List.mem_cons_self _ _)
    have hcond : ¬ (b.val < 2 ^ 7 ∧ b.val ≤ 2 ^ n - 1) := by
      intro hc
      have := hc.1
      norm_num at this
      omega
    simp only [readVarUint, hcond, if_false]
    split
    · exact ih _ _ _ _ (fun x hx => h x (List.mem_cons_of_mem _ hx))
    · rfl

/-- The reader consumes at least one byte and no more than there are. -/
theorem readVarUint_consumed (bs : List Byte) :
    ∀ (n shift res size v k : Nat), readVarUint bs n shift res size = some (v, k) →
      size < k ∧ k ≤ size + bs.length := by
  induction bs with
  | nil => intro n shift res size v k h; simp [readVarUint] at h
  | cons b tl ih =>
    intro n shift res size v k h
    simp only [readVarUint] at h
    split at h
    · simp only [Option.some.injEq, Prod.mk.injEq] at h
      simp only [List.length_cons]; omega
    · split at h
      · have := ih _ _ _ _ _ _ h
        simp only [List.length_cons]; omega
      · simp at h

/-- The reader `ReadVarUint32` consumes at least one byte and no more than
there are. -/
theorem readVarUint32_consumed (bs : List Byte) (v k : Nat)
    (h : ReadVarUint32 bs = some (v, k)) : 0 < k ∧ k ≤ bs.length := by
  unfold ReadVarUint32 at h
  split at h
  · simp at h
  · rename_i v0 k0 hread
    simp only [Option.some.injEq, Prod.mk.injEq] at h
    have := readVarUint_consumed bs 32 0 0 0 v0 k0 hread
    omega

theorem getElem?_length_append {α : Type} (a : List α) (x : α) (r : List α) :
    (a ++ x :: r)[a.length]? = some x := by
  rw [List.getElem?_append_right (le_refl _)]
  simp

theorem drop_succ_length_append {α : Type} (a : List α) (x : α) (r : List α) :
    List.drop (a.length + 1) (a ++ x :: r) = r := by
  rw [List.drop_append_eq_append_drop]; simp

/-- A round that continues moves the offset forward and keeps it inside the
code. -/
theorem wasmSizeStep_progress (code : List Byte) (top t : Nat)
    (h : wasmSizeStep code top = some t) : top < t ∧ t ≤ code.length := by
  unfold wasmSizeStep at h
  split at h
  · simp at h
  · split at h
    · simp at h
    · split at h
      · simp at h
      · rename_i size n hread
        have hc := readVarUint32_consumed _ _ _ hread
        dsimp only at h
        split at h
        · simp at h
        · simp only [Option.some.injEq] at h
          omega

/-- A round started past the end of the code breaks. -/
theorem wasmSizeStep_end (code : List Byte) (top : Nat) (h : code.length ≤ top) :
    wasmSizeStep code top = none := by
  unfold wasmSizeStep
  rw [List.getElem?_eq_none h]

/-- A round started at a valid section continues at the end of that section. -/
theorem wasmSizeStep_section (a : List Byte) (s : Section) (b : List Byte) (hs : s.valid) :
    wasmSizeStep (a ++ (s.bytes ++ b)) a.length = some (a.length + s.bytes.length) := by
  obtain ⟨h1, h11, hc, hfield, hv, hlt⟩ := hs
  have hread := readVarUint32_accepts s.size (s.payload ++ b) hc hfield (by rw [hv]; exact hlt)
  have hcode : a ++ (s.bytes ++ b) = a ++ s.id :: (s.size ++ (s.payload ++ b)) := by
    simp [Section.bytes]
  have hid : ¬ (s.id.val = 0 ∨ s.id.val > 11) := by omega
  have hlen : ¬ (a.length + 1 + s.size.length + s.payload.length
      > (a ++ s.id :: (s.size ++ (s.payload ++ b))).length) := by
    simp only [List.length_append, List.length_cons]; omega
  unfold wasmSizeStep
  rw [hcode, getElem?_length_append, drop_succ_length_append]
  simp only [hread, hv, hid, hlen, if_false]
  simp only [Section.bytes, List.length_append, List.length_cons]
  congr 1
  omega

/-- A round started at a trailer that is not a section breaks. -/
theorem wasmSizeStep_trailer (a t : List Byte) (ht : NotASection t) :
    wasmSizeStep (a ++ t) a.length = none := by
  unfold wasmSizeStep
  cases ht with
  | zeroId id rest h0 =>
    rw [getElem?_length_append]
    simp [h0]
  | bigId id rest hbig =>
    rw [getElem?_length_append]
    simp [hbig]
  | truncated id rest htr =>
    have hread : ReadVarUint32 rest = none := by
      unfold ReadVarUint32
      rw [readVarUint_truncated rest 32 0 0 0 htr]
    rw [getElem?_length_append, drop_succ_length_append, hread]
    simp
  | overrun id sz rest hc hover =>
    rw [getElem?_length_append, drop_succ_length_append]
    rcases readVarUint32_complete sz rest hc with hnone | hsome
    · rw [hnone]
      simp
    · have hlen : a.length + 1 + sz.length + lebValue sz
          > (a ++ id :: (sz ++ rest)).length := by
        simp only [List.length_append, List.length_cons]; omega
      rw [hsome]
      simp only [hlen, if_true]
      simp

/-- With enough rounds the loop breaks, at an offset from which a round
breaks. -/
theorem wasmSizeLoop_total (code : List Byte) :
    ∀ (fuel top : Nat), 0 < fuel → code.length < top + fuel →
      ∃ n, wasmSizeLoop code fuel top = some n ∧ wasmSizeStep code n = none ∧ top ≤ n := by
  intro fuel
  induction fuel with
  | zero => intro top h; omega
  | succ f ih =>
    intro top _ hlt
    cases hstep : wasmSizeStep code top with
    | none => exact ⟨top, by simp [wasmSizeLoop, hstep], hstep, le_refl _⟩
    | some t =>
      have hp := wasmSizeStep_progress code top t hstep
      obtain ⟨n, hn, hbreak, hle⟩ := ih t (by omega) (by omega)
      exact ⟨n, by simp [wasmSizeLoop, hstep, hn], hbreak, by omega⟩

/-- More rounds do not change a result. -/
theorem wasmSizeLoop_mono (code : List Byte) :
    ∀ (fuel k top n : Nat), wasmSizeLoop code fuel top = some n →
      wasmSizeLoop code (fuel + k) top = some n := by
  intro fuel
  induction fuel with
  | zero => intro k top n h; simp [wasmSizeLoop] at h
  | succ f ih =>
    intro k top n h
    have hf : f + 1 + k = (f + k) + 1 := by omega
    rw [hf]
    simp only [wasmSizeLoop] at h ⊢
    cases hstep : wasmSizeStep code top with
    | none => simpa [hstep] using h
    | some t =>
      rw [hstep] at h
      exact ih k t n h

/-- The loop walks over a run of valid sections, one round a section. -/
theorem wasmSizeLoop_sections (secs : List Section) :
    ∀ (a b : List Byte) (fuel : Nat), (∀ s ∈ secs, s.valid) →
      wasmSizeLoop (a ++ (sectionBytes secs ++ b)) (secs.length + fuel) a.length
        = wasmSizeLoop (a ++ (sectionBytes secs ++ b)) fuel
            (a.length + (sectionBytes secs).length) := by
  induction secs with
  | nil => intro a b fuel _; simp [sectionBytes]
  | cons s rest ih =>
    intro a b fuel hv
    have hs : s.valid := hv s (List.mem_cons_self _ _)
    have hrest : ∀ x ∈ rest, x.valid := fun x hx => hv x (List.mem_cons_of_mem _ hx)
    have hcode : a ++ (sectionBytes (s :: rest) ++ b)
        = a ++ (s.bytes ++ (sectionBytes rest ++ b)) := by
      simp [sectionBytes]
    have hcode2 : a ++ (s.bytes ++ (sectionBytes rest ++ b))
        = (a ++ s.bytes) ++ (sectionBytes rest ++ b) := by
      simp
    have hfuel : (s :: rest).length + fuel = (rest.length + fuel) + 1 := by
      simp only [List.length_cons]; omega
    rw [hfuel, hcode]
    simp only [wasmSizeLoop, wasmSizeStep_section a s _ hs]
    rw [hcode2]
    have := ih (a ++ s.bytes) b fuel hrest
    simp only [List.length_append] at this
    rw [this]
    simp [sectionBytes, Nat.add_assoc]

/-- Every section has at least two bytes, so there are no more sections than
bytes. -/
theorem sectionBytes_length (secs : List Section) (hv : ∀ s ∈ secs, s.valid) :
    secs.length ≤ (sectionBytes secs).length := by
  induction secs with
  | nil => simp
  | cons s rest ih =>
    have := ih (fun x hx => hv x (List.mem_cons_of_mem _ hx))
    simp only [sectionBytes, List.length_cons, List.length_append, Section.bytes]
    omega

/-- The scan of a well-formed module followed by `t` reaches the end of the
module and goes on from there. -/
theorem wasmSize_module (preamble : List Byte) (secs : List Section) (t : List Byte)
    (hwf : WellFormed preamble secs) :
    wasmSize (moduleBytes preamble secs ++ t)
      = wasmSizeLoop (moduleBytes preamble secs ++ t)
          ((moduleBytes preamble secs ++ t).length + 1 - secs.length)
          (moduleBytes preamble secs).length := by
  obtain ⟨hpre, hv⟩ := hwf
  have hle := sectionBytes_length secs hv
  have hcode : moduleBytes preamble secs ++ t = preamble ++ (sectionBytes secs ++ t) := by
    simp [moduleBytes]
  have hlen : (moduleBytes preamble secs).length = preamble.length + (sectionBytes secs).length := by
    simp [moduleBytes]
  unfold wasmSize
  rw [hlen, hcode, ← wasmSizeLoop_sections secs preamble t _ hv, hpre]
  congr 1
  simp only [List.length_append]
  omega

/-- A round that breaks ends the loop at its offset, when a round is left. -/
theorem wasmSizeLoop_break (code : List Byte) (fuel top : Nat) (hf : 0 < fuel)
    (h : wasmSizeStep code top = none) : wasmSizeLoop code fuel top = some top := by
  cases fuel with
  | zero => omega
  | succ f => simp [wasmSizeLoop, h]

/-- Code of at most 8 bytes is scanned in one round, which breaks at offset 8. -/
theorem wasmSize_short (code : List Byte) (h : code.length ≤ 8) : wasmSize code = some 8 :=
  wasmSizeLoop_break code _ 8 (by omega) (wasmSizeStep_end code 8 h)

/-- A slice from 0 to the length of a prefix is that prefix. -/
theorem slice?_take_left (a b : List Byte) : slice? (a ++ b) 0 a.length = some a := by
  unfold slice?
  have h : (0 : Int) ≤ 0 ∧ (0 : Int) ≤ (a.length : Int) ∧
      (a.length : Int) ≤ ((a ++ b).length : Int) := by
    refine ⟨le_refl _, by omega, ?_⟩
    simp only [List.length_append]; omega
  simp only [h, and_self, if_true]
  simp

/-- C1: a well-formed module (an 8-byte preamble, then sections each made of an
id byte in 1..11, an unsigned LEB128 32-bit size, which is a complete group of
at most 5 bytes with a value below `2 ^ 32`, and exactly that many payload
bytes) with nothing appended is scanned to its end: `wasmSize m = len m`. -/
theorem wasmSize_wellFormed (preamble : List Byte) (secs : List Section)
    (hwf : WellFormed preamble secs) :
    wasmSize (moduleBytes preamble secs) = some (moduleBytes preamble secs).length := by
  have hle := sectionBytes_length secs hwf.2
  have h := wasmSize_module preamble secs [] hwf
  rw [List.append_nil] at h
  rw [h]
  apply wasmSizeLoop_break
  · simp only [moduleBytes, List.length_append]; omega
  · exact wasmSizeStep_end _ _ (le_refl _)

/-- A module of two sections, the second with a two-byte size field, is scanned
to its end. -/
theorem wasmSize_wellFormed_witness :
    WellFormed [0, 97, 115, 109, 1, 0, 0, 0] [⟨1, [2], [7, 7]⟩, ⟨11, [0x81, 0], [9]⟩] ∧
    wasmSize (moduleBytes [0, 97, 115, 109, 1, 0, 0, 0] [⟨1, [2], [7, 7]⟩, ⟨11, [0x81, 0], [9]⟩])
      = some (moduleBytes [0, 97, 115, 109, 1, 0, 0, 0]
          [⟨1, [2], [7, 7]⟩, ⟨11, [0x81, 0], [9]⟩]).length :=
  ⟨by decide, wasmSize_wellFormed _ _ (by decide)⟩

/-- C2: a well-formed module `m` followed by a non-empty trailer `t` that does
not begin with a valid section (first byte 0, or above 11, or a truncated size
field, or a declared size that runs past the end of `t`) is scanned to the end
of `m`: `wasmSize (m ++ t) = len m`, strictly less than `len (m ++ t)`, and the
code handed to the interpreter, `code[0:wasmSize(code)]`, is exactly `m`. -/
theorem wasmSize_trailer (preamble : List Byte) (secs : List Section) (t : List Byte)
    (hwf : WellFormed preamble secs) (ht : NotASection t) :
    wasmSize (moduleBytes preamble secs ++ t) = some (moduleBytes preamble secs).length ∧
    (moduleBytes preamble secs).length < (moduleBytes preamble secs ++ t).length ∧
    trimmedCode (moduleBytes preamble secs ++ t) = some (moduleBytes preamble secs) := by
  have hle := sectionBytes_length secs hwf.2
  have hsize : wasmSize (moduleBytes preamble secs ++ t)
      = some (moduleBytes preamble secs).length := by
    rw [wasmSize_module preamble secs t hwf]
    apply wasmSizeLoop_break
    · simp only [moduleBytes, List.length_append]; omega
    · exact wasmSizeStep_trailer _ _ ht
  refine ⟨hsize, ?_, ?_⟩
  · cases ht <;> simp
  · simp only [trimmedCode, hsize]
    exact slice?_take_left _ _

/-- A module of one section followed by a trailer whose declared size, 3,
overruns the 2 bytes that remain. -/
theorem wasmSize_trailer_witness :
    (WellFormed [0, 97, 115, 109, 1, 0, 0, 0] [⟨1, [2], [7, 7]⟩] ∧
      NotASection ([5] ++ ([0x83, 0] ++ [1, 2]))) ∧
    (wasmSize (moduleBytes [0, 97, 115, 109, 1, 0, 0, 0] [⟨1, [2], [7, 7]⟩]
        ++ ([5] ++ ([0x83, 0] ++ [1, 2])))
      = some (moduleBytes [0, 97, 115, 109, 1, 0, 0, 0] [⟨1, [2], [7, 7]⟩]).length ∧
    (moduleBytes [0, 97, 115, 109, 1, 0, 0, 0] [⟨1, [2], [7, 7]⟩]).length
      < (moduleBytes [0, 97, 115, 109, 1, 0, 0, 0] [⟨1, [2], [7, 7]⟩]
          ++ ([5] ++ ([0x83, 0] ++ [1, 2]))).length ∧
    trimmedCode (moduleBytes [0, 97, 115, 109, 1, 0, 0, 0] [⟨1, [2], [7, 7]⟩]
        ++ ([5] ++ ([0x83, 0] ++ [1, 2])))
      = some (moduleBytes [0, 97, 115, 109, 1, 0, 0, 0] [⟨1, [2], [7, 7]⟩])) :=
  ⟨⟨by decide, NotASection.overrun 5 [0x83, 0] [1, 2] (by decide) (by decide)⟩,
    wasmSize_trailer _ _ _ (by decide)
      (NotASection.overrun 5 [0x83, 0] [1, 2] (by decide) (by decide))⟩

/-- C8: `wasmSize` is total.  For every byte sequence the loop ends within
`len code + 1` rounds and returns an offset `n`, the one at which a round
breaks, and more rounds return the same `n`; a round that continues moves the
offset strictly forward and leaves it at most `len code`; and a module with
zero sections (the 8-byte preamble alone) returns 8. -/
theorem wasmSize_total (code : List Byte) :
    (∃ n, wasmSize code = some n ∧ wasmSizeStep code n = none ∧
      ∀ fuel, code.length + 1 ≤ fuel → wasmSizeLoop code fuel 8 = some n) ∧
    (∀ top t, wasmSizeStep code top = some t → top < t ∧ t ≤ code.length) ∧
    (∀ preamble, preamble.length = 8 → wasmSize (moduleBytes preamble []) = some 8) := by
  refine ⟨?_, wasmSizeStep_progress code, ?_⟩
  · obtain ⟨n, hn, hbreak, _⟩ :=
      wasmSizeLoop_total code (code.length + 1) 8 (by omega) (by omega)
    refine ⟨n, hn, hbreak, ?_⟩
    intro fuel hfuel
    have := wasmSizeLoop_mono code (code.length + 1) (fuel - (code.length + 1)) 8 n hn
    rwa [Nat.add_sub_cancel' hfuel] at this
  · intro preamble hpre
    exact wasmSize_short _ (by simp [moduleBytes, sectionBytes, hpre])

/-- The scan of three bytes, fewer than a preamble. -/
theorem wasmSize_total_witness :
    (∃ n, wasmSize [1, 2, 3] = some n ∧ wasmSizeStep [1, 2, 3] n = none ∧
      ∀ fuel, [1, 2, 3].length + 1 ≤ fuel → wasmSizeLoop [1, 2, 3] fuel 8 = some n) ∧
    (∀ top t, wasmSizeStep [1, 2, 3] top = some t → top < t ∧ t ≤ [1, 2, 3].length) ∧
    (∀ preamble, preamble.length = 8 → wasmSize (moduleBytes preamble []) = some 8) :=
  wasmSize_total [1, 2, 3]

/-! ## Theorems: the host functions and `execute` -/

section HostTheorems

variable {σ : Type}

/-- A slice with natural bounds that are in range. -/
theorem slice?_cast (s : List Byte) (lo hi : Nat) (h : lo ≤ hi ∧ hi ≤ s.length) :
    slice? s (lo : Int) (hi : Int) = some ((s.drop lo).take (hi - lo)) := by
  unfold slice?
  have hc : (0 : Int) ≤ (lo : Int) ∧ (lo : Int) ≤ (hi : Int) ∧ (hi : Int) ≤ (s.length : Int) := by
    omega
  simp [hc]

/-- A slice `s[p : p+n]` that is in range. -/
theorem slice?_add (s : List Byte) (p n : Nat) (h : p + n ≤ s.length) :
    slice? s (p : Int) ((p : Int) + (n : Int)) = some ((s.drop p).take n) := by
  have := slice?_cast s p (p + n) ⟨by omega, h⟩
  rw [Nat.add_sub_cancel_left] at this
  rw [← this]
  congr 1

/-- A copy into a window `mem[p : p+n]` that is in range. -/
theorem copyTo?_add (mem : List Byte) (p n : Nat) (src : List Byte) (h : p + n ≤ mem.length) :
    copyTo? mem (p : Int) ((p : Int) + (n : Int)) src = some (copyInto mem p n src) := by
  unfold copyTo?
  have hc : (0 : Int) ≤ (p : Int) ∧ (p : Int) ≤ (p : Int) + (n : Int) ∧
      (p : Int) + (n : Int) ≤ (mem.length : Int) := by
    omega
  have hn : ((p : Int) + (n : Int)).toNat - (p : Int).toNat = n := by
    omega
  rw [if_pos hc, hn, Int.toNat_ofNat]

/-- Host calls that all return, followed by more calls. -/
theorem runCalls_append (pre rest : List (HostCall σ)) :
    ∀ (ctx ctx1 : context σ), runCalls pre ctx = (ctx1, none) →
      runCalls (pre ++ rest) ctx = runCalls rest ctx1 := by
  induction pre with
  | nil =>
    intro ctx ctx1 h
    simp only [runCalls, Prod.mk.injEq, and_true] at h
    simp [h]
  | cons c tl ih =>
    intro ctx ctx1 h
    simp only [List.cons_append, runCalls] at h ⊢
    split at h
    · rename_i m code heq
      exact ih _ _ h
    · simp at h

/-- The case "finish" on an in-range pair: the output is the range, the signal
is the sentinel `None`. -/
theorem finish_inRange (mem : List Byte) (l0 l1 : Int) (rest : List Int) (ctx : context σ)
    (h : uint32 l0 + uint32 l1 ≤ mem.length) :
    finish ⟨mem, l0 :: l1 :: rest, ctx⟩
      = (⟨mem, l0 :: l1 :: rest, { ctx with output := (mem.drop (uint32 l0)).take (uint32 l1) }⟩,
          Signal.panic (PanicValue.code Code.None)) := by
  simp only [finish, List.getElem?_cons_zero, List.getElem?_cons_succ, slice?_add _ _ _ h]

/-- C7: when the run of the entry point is ended by the host function "finish"
called with an in-range pair `(ptr, len)` (a length of 0 included), `execute`
returns no error and, as output, exactly the bytes `memory[ptr .. ptr+len)`. -/
theorem execute_finish (NewVirtualMachine : List Byte → Except Error (VirtualMachine σ))
    (c : Contract) (state : σ) (params : CallParams) (code : List Byte)
    (vm : VirtualMachine σ) (pre post : List (HostCall σ)) (ctx1 : context σ)
    (mem : List Byte) (l0 l1 : Int) (rest : List Int)
    (htrim : trimmedCode c.code = some code)
    (hvm : NewVirtualMachine code = Except.ok vm)
    (hmain : vm.main ≠ none)
    (hcalls : vm.calls = pre ++ ⟨finish, l0 :: l1 :: rest, mem⟩ :: post)
    (hpre : runCalls pre (newContext c state params) = (ctx1, none))
    (hrange : uint32 l0 + uint32 l1 ≤ mem.length) :
    execute NewVirtualMachine c state params
      = ExecResult.returned ((mem.drop (uint32 l0)).take (uint32 l1)) none ctx1.state := by
  unfold trimmedCode at htrim
  cases hsize : wasmSize c.code with
  | none => simp [hsize] at htrim
  | some size =>
    rw [hsize] at htrim
    simp only at htrim
    cases hm : vm.main with
    | none => exact absurd hm hmain
    | some entryID =>
      have hrun : vm.Run (newContext c state params)
          = ({ ctx1 with output := (mem.drop (uint32 l0)).take (uint32 l1) },
              some ⟨Code.None⟩) := by
        simp only [VirtualMachine.Run, hcalls, runCalls_append _ _ _ _ hpre, runCalls,
          finish_inRange mem l0 l1 rest ctx1 hrange, UnifyError]
      simp only [execute, hsize, htrim, hvm, hm, hrun, GetCode]
      simp

/-- A run whose only host call is "finish" with `(1, 2)` on the memory
`[5, 6, 7, 8]` returns `[6, 7]`. -/
theorem execute_finish_witness :
    uint32 1 + uint32 2 ≤ [5, 6, 7, 8].length ∧
    execute (fun _ => Except.ok ⟨some 0, [⟨finish, [1, 2], [5, 6, 7, 8]⟩], none⟩)
        ⟨[0, 97, 115, 109, 1, 0, 0, 0]⟩ ()
        ⟨CallType.Call, ZeroAddress, ZeroAddress, ZeroAddress, [], 0, 0⟩
      = ExecResult.returned [6, 7] none () :=
  ⟨by decide,
    execute_finish (fun _ => Except.ok ⟨some 0, [⟨finish, [1, 2], [5, 6, 7, 8]⟩], none⟩)
      ⟨[0, 97, 115, 109, 1, 0, 0, 0]⟩ ()
      ⟨CallType.Call, ZeroAddress, ZeroAddress, ZeroAddress, [], 0, 0⟩
      [0, 97, 115, 109, 1, 0, 0, 0] ⟨some 0, [⟨finish, [1, 2], [5, 6, 7, 8]⟩], none⟩ [] []
      (newContext ⟨[0, 97, 115, 109, 1, 0, 0, 0]⟩ ()
        ⟨CallType.Call, ZeroAddress, ZeroAddress, ZeroAddress, [], 0, 0⟩)
      [5, 6, 7, 8] 1 2 [] (by decide) rfl (by simp) rfl rfl (by decide)⟩

/-- C3: the run of the entry point is ended by the host function "revert"
called with `(0, 3)` on the memory `[1, 2, 3]`.  The host function records
`[1, 2, 3]` as the output of the context, but `execute` returns the failure of
kind `ExecutionReverted` with no output bytes at all. -/
theorem execute_revert_drops_output :
    (revert (⟨[1, 2, 3], [0, 3],
        newContext ⟨[0, 97, 115, 109, 1, 0, 0, 0]⟩ ()
          ⟨CallType.Call, ZeroAddress, ZeroAddress, ZeroAddress, [], 0, 0⟩⟩ : Machine Unit)).1.ctx.output
      = [1, 2, 3] ∧
    execute (fun _ => Except.ok ⟨some 0, [⟨revert, [0, 3], [1, 2, 3]⟩], none⟩)
        ⟨[0, 97, 115, 109, 1, 0, 0, 0]⟩ ()
        ⟨CallType.Call, ZeroAddress, ZeroAddress, ZeroAddress, [], 0, 0⟩
      = ExecResult.returned [] (some ⟨Code.ExecutionReverted⟩) () :=
  ⟨by decide, by rfl⟩

/-- The memory a value read leaves behind. -/
theorem readValue?_memory (mem : List Byte) (valuePtr : Int) (value : Nat) (mem1 : List Byte)
    (h : readValue? mem valuePtr = some (value, mem1)) :
    mem1 = reverseWindow mem valuePtr.toNat ValueByteSize := by
  unfold readValue? at h
  split at h
  · simp at h
  · simp only [Option.some.injEq, Prod.mk.injEq] at h
    exact h.2.symm

/-- C4: the host function resolved for "callDelegate" never reaches the nested
dispatch: on every machine it panics and leaves the frame and the context as
they were, the memory too apart from the 16 bytes at 0 that the value read
reverses.  Called with in-range arguments (gas 100, target at 0, data at
`[20, 24)` in a memory of 40 bytes) the panic is "should not happen", the
`default` branch of the call-type switch, whatever the dispatcher is; the
sibling "callStatic" on the same arguments does dispatch, with call-type
`Static`. -/
theorem callDelegate_should_not_happen (env : Env σ) (m : Machine σ) :
    (∃ p mem, callFamily env "callDelegate" m = (⟨mem, m.Locals, m.ctx⟩, Signal.panic p) ∧
      (mem = m.Memory ∨ mem = reverseWindow m.Memory 0 ValueByteSize)) ∧
    callFamily env "callDelegate" ⟨List.replicate 40 0, [100, 0, 20, 4], m.ctx⟩
      = (⟨List.replicate 40 0, [100, 0, 20, 4], m.ctx⟩,
          Signal.panic (PanicValue.message "should not happen")) ∧
    (callFamily env "callStatic" ⟨List.replicate 40 0, [100, 0, 20, 4], m.ctx⟩).1.ctx.returnData
      = (env.CallFromSite m.ctx.state m.ctx.params
          { CallType := CallType.Static, Origin := ZeroAddress, Caller := ZeroAddress,
            Callee := ZeroAddress, Input := [0, 0, 0, 0], Value := 0, Gas := 100 }).output := by
  refine ⟨?_, rfl, ?_⟩
  · have hct : callTypeOf "callDelegate" = none := by decide
    have hwv : decide ("callDelegate" = "call" ∨ "callDelegate" = "callCode") = false := by
      decide
    have hzero : ((uint32 0 : Nat) : Int).toNat = 0 := by decide
    unfold callFamily
    rw [hct]
    simp only [hwv, runtimePanic, Bool.false_eq_true, if_false]
    repeat' split
    all_goals first
      | exact ⟨_, _, rfl, Or.inl rfl⟩
      | (rename_i hlv _ _ _ _ _ _ _ _ _ hread
         cases hlv
         have hmem := readValue?_memory _ _ _ _ hread
         rw [hzero] at hmem
         exact ⟨_, _, rfl, Or.inr hmem⟩)
  · have hstep : callFamily env "callStatic" ⟨List.replicate 40 0, [100, 0, 20, 4], m.ctx⟩
        = (let r := env.CallFromSite m.ctx.state m.ctx.params
              { CallType := CallType.Static, Origin := ZeroAddress, Caller := ZeroAddress,
                Callee := ZeroAddress, Input := [0, 0, 0, 0], Value := 0, Gas := 100 }
           let m1 : Machine σ := ⟨List.replicate 40 0, [100, 0, 20, 4],
              { m.ctx with
                state := r.state
                returnData := r.output
                params := { m.ctx.params with Gas := r.siteGas + r.gas } }⟩
           match r.err with
           | some e =>
             if e.code = Code.ExecutionReverted then (m1, Signal.ret Revert)
             else (m1, Signal.panic (PanicValue.error e))
           | none => (m1, Signal.ret Success)) := rfl
    rw [hstep]
    dsimp only
    split
    · split <;> rfl
    · rfl

/-- C5, as stated, fails: for the 8-byte preamble followed by the trailer
`[0, 42]` the trimmed code has 8 bytes, yet "getCodeSize" returns 10, not 8, and
"codeCopy" at offset 8 copies the two trailer bytes into memory. -/
theorem getCodeSize_counts_trailer :
    wasmSize [0, 97, 115, 109, 1, 0, 0, 0, 0, 42] = some 8 ∧
    trimmedCode [0, 97, 115, 109, 1, 0, 0, 0, 0, 42] = some [0, 97, 115, 109, 1, 0, 0, 0] ∧
    (getCodeSize ⟨[], [], unitContext [0, 97, 115, 109, 1, 0, 0, 0, 0, 42]⟩).2 ≠ Signal.ret 8 ∧
    (getCodeSize ⟨[], [], unitContext [0, 97, 115, 109, 1, 0, 0, 0, 0, 42]⟩).2 = Signal.ret 10 ∧
    codeCopy ⟨[1, 1, 1], [0, 8, 2], unitContext [0, 97, 115, 109, 1, 0, 0, 0, 0, 42]⟩
      = (⟨[0, 42, 1], [0, 8, 2], unitContext [0, 97, 115, 109, 1, 0, 0, 0, 0, 42]⟩,
          Signal.ret Success) := by
  refine ⟨by decide, by decide, by decide, by decide, by decide⟩

/-- C5, amended: the buffer that "getCodeSize" measures and "codeCopy" reads is
the whole deployed code, the trailer included.  In the context `execute`
builds, "getCodeSize" returns `len code`, and "codeCopy" with a positive length
and in-range arguments copies `code[offset : offset+len]` to `dest`. -/
theorem getCodeSize_whole_code (c : Contract) (state : σ) (params : CallParams)
    (mem : List Byte) (l0 l1 l2 : Int) (rest : List Int)
    (hlen : 0 < uint32 l2)
    (hdest : uint32 l0 ≤ mem.length)
    (hsrc : uint32 l1 + uint32 l2 ≤ c.code.length) :
    getCodeSize ⟨mem, l0 :: l1 :: l2 :: rest, newContext c state params⟩
      = (⟨mem, l0 :: l1 :: l2 :: rest, newContext c state params⟩, Signal.ret c.code.length) ∧
    codeCopy ⟨mem, l0 :: l1 :: l2 :: rest, newContext c state params⟩
      = (⟨copyInto mem (uint32 l0) (mem.length - uint32 l0)
            ((c.code.drop (uint32 l1)).take (uint32 l2)),
          l0 :: l1 :: l2 :: rest, newContext c state params⟩, Signal.ret Success) := by
  constructor
  · rfl
  · have hpos : (uint32 l2 : Int) > 0 := by omega
    have hd := slice?_cast mem (uint32 l0) mem.length ⟨hdest, le_refl _⟩
    have hs := slice?_add c.code (uint32 l1) (uint32 l2) hsrc
    simp only [codeCopy, List.getElem?_cons_zero, List.getElem?_cons_succ, hpos, if_true,
      hd, newContext, hs, Int.toNat_ofNat]

/-- The preamble followed by the trailer `[0, 42]`: 10 bytes are counted and the
trailer is copied. -/
theorem getCodeSize_whole_code_witness :
    getCodeSize ⟨[1, 1, 1], [0, 8, 2], unitContext [0, 97, 115, 109, 1, 0, 0, 0, 0, 42]⟩
      = (⟨[1, 1, 1], [0, 8, 2], unitContext [0, 97, 115, 109, 1, 0, 0, 0, 0, 42]⟩,
          Signal.ret ([0, 97, 115, 109, 1, 0, 0, 0, 0, 42] : List Byte).length) ∧
    codeCopy ⟨[1, 1, 1], [0, 8, 2], unitContext [0, 97, 115, 109, 1, 0, 0, 0, 0, 42]⟩
      = (⟨copyInto [1, 1, 1] (uint32 0) (([1, 1, 1] : List Byte).length - uint32 0)
            ((([0, 97, 115, 109, 1, 0, 0, 0, 0, 42] : List Byte).drop (uint32 8)).take (uint32 2)),
          [0, 8, 2], unitContext [0, 97, 115, 109, 1, 0, 0, 0, 0, 42]⟩, Signal.ret Success) :=
  getCodeSize_whole_code ⟨[0, 97, 115, 109, 1, 0, 0, 0, 0, 42]⟩ () unitParams [1, 1, 1] 0 8 2 []
    (by decide) (by decide) (by decide)

/-- C6: with a memory of 25 bytes and the destination 20, the range `[20, 40)`
is not inside memory, yet "getAddress" writes the first 5 bytes of the callee
address at 20 and returns `Success`; "getCaller" and "getTxOrigin" on the same
machine panic and leave memory as it was. -/
theorem getAddress_partial_write :
    getAddress ⟨List.replicate 25 0, [20], unitContext []⟩
      = (⟨List.replicate 20 0 ++ List.replicate 5 0xcc, [20], unitContext []⟩,
          Signal.ret Success) ∧
    getCaller ⟨List.replicate 25 0, [20], unitContext []⟩
      = (⟨List.replicate 25 0, [20], unitContext []⟩, Signal.panic PanicValue.runtime) ∧
    getTxOrigin ⟨List.replicate 25 0, [20], unitContext []⟩
      = (⟨List.replicate 25 0, [20], unitContext []⟩, Signal.panic PanicValue.runtime) := by
  refine ⟨by decide, by decide, by decide⟩

/-- A copy of exactly `src.length` bytes replaces that window by `src`. -/
theorem copyInto_exact (mem : List Byte) (p : Nat) (src : List Byte) :
    copyInto mem p src.length src = mem.take p ++ (src ++ mem.drop (p + src.length)) := by
  simp [copyInto]

/-- C9: with the requested block number `n = uint64(Locals[0])`, the height
`h`, the maximum lookback `L`, a provider that returns a hash for `n` and an
in-range destination, "getBlockHash" aborts if and only if `n ≥ h` or
`h - n > L`; otherwise it returns `Success` and memory is what it was with the
bytes at the destination replaced by exactly that hash. -/
theorem getBlockHash_spec (env : Env σ) (mem : List Byte) (l0 l1 : Int) (rest : List Int)
    (ctx : context σ) (hash : List Byte)
    (hprov : env.BlockHash ctx.state (uint64 l0) = Except.ok hash)
    (hlo : 0 ≤ l1) (hhi : l1 + hash.length ≤ mem.length) :
    ((getBlockHash env ⟨mem, l0 :: l1 :: rest, ctx⟩).2.aborts = true ↔
      (uint64 l0 ≥ env.LastBlockHeight ctx.state ∨
        env.LastBlockHeight ctx.state - uint64 l0 > env.MaximumAllowedBlockLookBack)) ∧
    (¬ (uint64 l0 ≥ env.LastBlockHeight ctx.state ∨
        env.LastBlockHeight ctx.state - uint64 l0 > env.MaximumAllowedBlockLookBack) →
      getBlockHash env ⟨mem, l0 :: l1 :: rest, ctx⟩
        = (⟨mem.take l1.toNat ++ (hash ++ mem.drop (l1.toNat + hash.length)),
            l0 :: l1 :: rest, ctx⟩, Signal.ret Success)) := by
  obtain ⟨p, rfl⟩ := Int.eq_ofNat_of_zero_le hlo
  have hcopy := copyTo?_add mem p hash.length hash (by omega)
  by_cases h1 : uint64 l0 ≥ env.LastBlockHeight ctx.state
  · simp [getBlockHash, h1, Signal.aborts]
  · by_cases h2 : env.LastBlockHeight ctx.state - uint64 l0 > env.MaximumAllowedBlockLookBack
    · simp [getBlockHash, h1, h2, Signal.aborts]
    · have hres : getBlockHash env ⟨mem, (p : Int) :: rest |>.cons l0, ctx⟩
          = (⟨mem.take p ++ (hash ++ mem.drop (p + hash.length)),
              l0 :: (p : Int) :: rest, ctx⟩, Signal.ret Success) := by
        simp only [getBlockHash, List.getElem?_cons_zero, List.getElem?_cons_succ, h1, h2,
          if_false, hprov, hcopy, copyInto_exact]
      constructor
      · rw [hres]
        simp [Signal.aborts, h1, h2]
      · intro _
        rw [hres]
        simp

/-- Block 7 at height 10, written at offset 4 of a memory of 40 bytes. -/
theorem getBlockHash_spec_witness :
    ((getBlockHash unitLedger ⟨List.replicate 40 0, [7, 4], unitContext []⟩).2.aborts = true ↔
      (uint64 7 ≥ unitLedger.LastBlockHeight (unitContext []).state ∨
        unitLedger.LastBlockHeight (unitContext []).state - uint64 7
          > unitLedger.MaximumAllowedBlockLookBack)) ∧
    (¬ (uint64 7 ≥ unitLedger.LastBlockHeight (unitContext []).state ∨
        unitLedger.LastBlockHeight (unitContext []).state - uint64 7
          > unitLedger.MaximumAllowedBlockLookBack) →
      getBlockHash unitLedger ⟨List.replicate 40 0, [7, 4], unitContext []⟩
        = (⟨(List.replicate 40 0).take (4 : Int).toNat ++ (List.replicate 32 7
              ++ (List.replicate 40 0).drop ((4 : Int).toNat + (List.replicate 32 (7 : Byte)).length)),
            [7, 4], unitContext []⟩, Signal.ret Success)) :=
  getBlockHash_spec unitLedger (List.replicate 40 0) 7 4 [] (unitContext [])
    (List.replicate 32 7) rfl (by decide) (by decide)

/-- Reversing a window that is in range keeps the length. -/
theorem reverseWindow_length (mem : List Byte) (lo n : Nat) (h : lo + n ≤ mem.length) :
    (reverseWindow mem lo n).length = mem.length := by
  simp only [reverseWindow, List.length_append, List.length_take, List.length_reverse,
    List.length_drop]
  omega

/-- A value read that is in range. -/
theorem readValue?_add (mem : List Byte) (p : Nat) (h : p + ValueByteSize ≤ mem.length) :
    readValue? mem (p : Int)
      = some (littleEndian ((mem.drop p).take ValueByteSize),
          reverseWindow mem p ValueByteSize) := by
  unfold readValue?
  rw [slice?_add mem p ValueByteSize h, Int.toNat_ofNat]

/-- A denied "create" with in-range value and data arguments (the end of the
data range, which the source computes in `uint32`, below `2 ^ 32`): the code
`Error` is returned, the ledger state is untouched, the sequence counter is
advanced by one in 64-bit arithmetic, and memory is left with the value window
reversed. -/
theorem create_denied_frame (env : Env σ) (mem : List Byte) (l0 l1 l2 l3 : Int)
    (rest : List Int) (ctx : context σ) (e : Error)
    (hvalue : uint32 l0 + ValueByteSize ≤ mem.length)
    (hdata : uint32 l1 + uint32 l2 ≤ mem.length)
    (hend : uint32 l1 + uint32 l2 < 2 ^ 32)
    (hdenied : env.EnsureCreatePermission ctx.state ctx.params.Callee = some e) :
    create env ⟨mem, l0 :: l1 :: l2 :: l3 :: rest, ctx⟩
      = (⟨reverseWindow mem (uint32 l0) ValueByteSize, l0 :: l1 :: l2 :: l3 :: rest,
          { ctx with sequence := (ctx.sequence + 1) % 2 ^ 64 }⟩, Signal.ret 1) := by
  have hv := readValue?_add mem (uint32 l0) hvalue
  have hd := slice?_cast (reverseWindow mem (uint32 l0) ValueByteSize) (uint32 l1)
    ((uint32 l1 + uint32 l2) % 2 ^ 32)
    (by rw [Nat.mod_eq_of_lt hend, reverseWindow_length _ _ _ hvalue]; omega)
  simp only [create, List.getElem?_cons_zero, List.getElem?_cons_succ, hv, hd, hdenied,
    ErrorCode]

/-- C10: "create" with the value at 0, the data at `[16, 24)` and the result at
24, on the memory `1, 2, …, 40`, while the contract-creation permission is
denied.  It returns the code `Error` (1) without a panic, the ledger state is
what it was and the context differs only in the sequence counter, now 1; but
linear memory is not what it was: the value read has reversed the 16 bytes at
0 in place. -/
theorem create_denied_reverses_value :
    create unitLedger
        ⟨[1, 2, 3, 4, 5, 6, 7, 8, 9, 10, 11, 12, 13, 14, 15, 16, 17, 18, 19, 20,
          21, 22, 23, 24, 25, 26, 27, 28, 29, 30, 31, 32, 33, 34, 35, 36, 37, 38, 39, 40],
          [0, 16, 8, 24], unitContext []⟩
      = (⟨[16, 15, 14, 13, 12, 11, 10, 9, 8, 7, 6, 5, 4, 3, 2, 1, 17, 18, 19, 20,
          21, 22, 23, 24, 25, 26, 27, 28, 29, 30, 31, 32, 33, 34, 35, 36, 37, 38, 39, 40],
          [0, 16, 8, 24], { unitContext [] with sequence := 1 }⟩, Signal.ret 1) := by
  decide

end HostTheorems

/-! ## Theorems: the range of the trimmed code -/

section TrimTheorems

variable {σ : Type}

/-- The loop returns the offset it was started with or an offset inside the
code. -/
theorem wasmSizeLoop_bound (code : List Byte) :
    ∀ (fuel top n : Nat), wasmSizeLoop code fuel top = some n → n = top ∨ n ≤ code.length := by
  intro fuel
  induction fuel with
  | zero => intro top n h; simp [wasmSizeLoop] at h
  | succ f ih =>
    intro top n h
    simp only [wasmSizeLoop] at h
    cases hstep : wasmSizeStep code top with
    | none =>
      rw [hstep] at h
      simp only [Option.some.injEq] at h
      exact Or.inl h.symm
    | some t =>
      rw [hstep] at h
      have hp := wasmSizeStep_progress code top t hstep
      rcases ih t n h with h1 | h2
      · right; omega
      · exact Or.inr h2

/-- The slice `code[0:8]` of fewer than 8 bytes panics. -/
theorem slice?_short (code : List Byte) (h : code.length < 8) : slice? code 0 (8 : Nat) = none := by
  unfold slice?
  have hc : ¬ ((0 : Int) ≤ 0 ∧ (0 : Int) ≤ ((8 : Nat) : Int) ∧
      ((8 : Nat) : Int) ≤ (code.length : Int)) := by
    omega
  rw [if_neg hc]

/-- C11: for every byte sequence of at most 7 bytes (`code.take 7`, the empty
code included) `wasmSize` returns 8, more than the length, so the slice
`c.code[0:int(wasmSize(c.code))]` of `execute` is out of range and `execute`
panics before the interpreter is built; in general `wasmSize` returns an
offset that is at most the length or is the initial 8 of code shorter than 8
bytes. -/
theorem wasmSize_short_exceeds_length
    (NewVirtualMachine : List Byte → Except Error (VirtualMachine σ))
    (code : List Byte) (state : σ) (params : CallParams) :
    wasmSize (code.take 7) = some 8 ∧
    (code.take 7).length < 8 ∧
    trimmedCode (code.take 7) = none ∧
    execute NewVirtualMachine ⟨code.take 7⟩ state params
      = ExecResult.panicked PanicValue.runtime ∧
    (∃ n, wasmSize code = some n ∧ (n ≤ code.length ∨ (n = 8 ∧ code.length < 8))) := by
  have hlen : (code.take 7).length < 8 := by
    rw [List.length_take]; omega
  have hsize : wasmSize (code.take 7) = some 8 := wasmSize_short _ (by omega)
  have hslice := slice?_short (code.take 7) hlen
  refine ⟨hsize, hlen, ?_, ?_, ?_⟩
  · simp only [trimmedCode, hsize]
    exact hslice
  · simp only [execute, hsize]
    rw [hslice]
  · obtain ⟨n, hn, _, _⟩ :=
      wasmSizeLoop_total code (code.length + 1) 8 (by omega) (by omega)
    refine ⟨n, hn, ?_⟩
    rcases wasmSizeLoop_bound code _ _ _ hn with h8 | hle
    · by_cases hc : code.length < 8
      · exact Or.inr ⟨h8, hc⟩
      · left; omega
    · exact Or.inl hle

end TrimTheorems

end Wasm
